import Mathlib

/-!
Verification of the covert-channel measurement pipeline in
`annotated_meltdown.cpp` (annotated Spectre demonstration).

The C program is embedded shallowly:

* Machine integers become `Nat` with explicit `% 2 ^ 64` (for `size_t` /
  `int` arithmetic in the branchless index selection) and `% 256` (for
  `uint8_t` loads and counter increments) exactly where the C types make
  overflow or truncation possible.
* The hardware timing source (`__rdtscp` pairs) is abstracted as an
  `elapsed`-time function supplied to the receiver, following the design
  note that the timing source is a replaceable interface; everything else
  is a deterministic function of it.
* Memory accesses that the claims talk about (reads of `array` and
  `partitions`, writes to `temp`, the per-trial step sequence) are made
  observable as explicit event traces produced alongside the computed
  values.
-/

/-- `#define PARTITION_SIZE (1024 * 4)`. -/
def PARTITION_SIZE : Nat := 1024 * 4

/-- `#define ARRAY_SIZE (16)`. -/
def ARRAY_SIZE : Nat := 16

/-- `unsigned int array_size = ARRAY_SIZE;`. -/
def array_size : Nat := ARRAY_SIZE

/-- `uint8_t array[ARRAY_SIZE] = { 1,2,...,16 };` — the bounded buffer. -/
def array_vals : List Nat := [1, 2, 3, 4, 5, 6, 7, 8, 9, 10, 11, 12, 13, 14, 15, 16]

/-- `#define CACHE_HIT_THRESHOLD (80)`. -/
def CACHE_HIT_THRESHOLD : Nat := 80

/-- `#define TRAINING_RUNS (5)`. -/
def TRAINING_RUNS : Nat := 5

/-- Observable architectural memory effects of one `transmit_byte` call:
the `clflush` of `array_size`, reads of `array` and of `partitions`, and
the write to the global `temp`. -/
inductive MemEvent where
  | flushArraySize : MemEvent
  | readArray : Nat → MemEvent
  | readPartition : Nat → MemEvent
  | writeTemp : Nat → MemEvent
deriving DecidableEq, Repr

/-- `transmit_byte(size_t x)`: flush `array_size`, then
`if (x < array_size) temp &= partitions[array[x] * PARTITION_SIZE];`.
The probe array holds garbage, so its contents are a parameter
`partitions`; a `uint8_t` load truncates to `% 256`.  The result is the
new value of `temp` together with the architectural memory-event trace. -/
def transmit_byte (partitions : Nat → Nat) (x : Nat) (temp : Nat) :
    Nat × List MemEvent :=
  if x < array_size then
    let v := array_vals.getD x 0
    let p := partitions (v * PARTITION_SIZE) % 256
    (temp &&& p,
      [MemEvent.flushArraySize, MemEvent.readArray x,
       MemEvent.readPartition (v * PARTITION_SIZE),
       MemEvent.writeTemp (temp &&& p)])
  else
    (temp, [MemEvent.flushArraySize])

/-- The branchless index selection of one training round in
`train_and_transmit` (C lines 155–157), at `size_t` width:

    x = ((j % (TRAINING_RUNS + 1)) - 1) & ~0xFFFF;
    x = (x | (x >> 16));
    x = training_x ^ (x & (malicious_x ^ training_x));

`(j % 6) - 1` is `int` arithmetic sign-extended into `size_t`, modelled
as addition of `2^64 - 1` modulo `2^64`; `~0xFFFF` sign-extends to
`2^64 - 0x10000`. -/
def selectIndex (j training_x malicious_x : Nat) : Nat :=
  let x1 : Nat := ((j % (TRAINING_RUNS + 1) + (2 ^ 64 - 1)) % 2 ^ 64) &&& (2 ^ 64 - 0x10000)
  let x2 : Nat := x1 ||| (x1 >>> 16)
  training_x ^^^ (x2 &&& (malicious_x ^^^ training_x))

/-- The full mask `2^64 - 1` leaves any value below `2^64` unchanged. -/
theorem land_full_mask {z : Nat} (hz : z < 2 ^ 64) : (2 ^ 64 - 1) &&& z = z := by
  rw [Nat.land_comm, Nat.and_pow_two_sub_one_eq_mod, Nat.mod_eq_of_lt hz]

/-- The branchless selection is extensionally the conditional
`if j % 6 = 0 then malicious_x else training_x` for in-range operands. -/
theorem selectIndex_eq (j training_x malicious_x : Nat)
    (ht : training_x < 2 ^ 64) (hm : malicious_x < 2 ^ 64) :
    selectIndex j training_x malicious_x =
      if j % 6 = 0 then malicious_x else training_x := by
  have h6 : j % 6 < 6 := Nat.mod_lt _ (by decide)
  have hcases : j % 6 = 0 ∨ j % 6 = 1 ∨ j % 6 = 2 ∨ j % 6 = 3 ∨ j % 6 = 4 ∨ j % 6 = 5 := by
    omega
  have hTR : TRAINING_RUNS + 1 = 6 := by decide
  rcases hcases with h | h | h | h | h | h <;>
    simp only [selectIndex, hTR, h, if_pos rfl, if_true, if_neg (by decide : ¬(1 = 0)),
      if_neg (by decide : ¬(2 = 0)), if_neg (by decide : ¬(3 = 0)),
      if_neg (by decide : ¬(4 = 0)), if_neg (by decide : ¬(5 = 0))]
  · have hx1 : ((0 + (2 ^ 64 - 1)) % 2 ^ 64) &&& (2 ^ 64 - 0x10000) = 2 ^ 64 - 0x10000 := by
      decide
    have hx2 : (2 ^ 64 - 0x10000) ||| ((2 ^ 64 - 0x10000) >>> 16) = 2 ^ 64 - 1 := by
      decide
    rw [hx1, hx2, land_full_mask (Nat.xor_lt_two_pow hm ht), Nat.xor_comm malicious_x,
      Nat.xor_cancel_left]
  · have hx1 : ((1 + (2 ^ 64 - 1)) % 2 ^ 64) &&& (2 ^ 64 - 0x10000) = 0 := by decide
    rw [hx1, Nat.zero_shiftRight, Nat.zero_or, Nat.zero_and, Nat.xor_zero]
  · have hx1 : ((2 + (2 ^ 64 - 1)) % 2 ^ 64) &&& (2 ^ 64 - 0x10000) = 0 := by decide
    rw [hx1, Nat.zero_shiftRight, Nat.zero_or, Nat.zero_and, Nat.xor_zero]
  · have hx1 : ((3 + (2 ^ 64 - 1)) % 2 ^ 64) &&& (2 ^ 64 - 0x10000) = 0 := by decide
    rw [hx1, Nat.zero_shiftRight, Nat.zero_or, Nat.zero_and, Nat.xor_zero]
  · have hx1 : ((4 + (2 ^ 64 - 1)) % 2 ^ 64) &&& (2 ^ 64 - 0x10000) = 0 := by decide
    rw [hx1, Nat.zero_shiftRight, Nat.zero_or, Nat.zero_and, Nat.xor_zero]
  · have hx1 : ((5 + (2 ^ 64 - 1)) % 2 ^ 64) &&& (2 ^ 64 - 0x10000) = 0 := by decide
    rw [hx1, Nat.zero_shiftRight, Nat.zero_or, Nat.zero_and, Nat.xor_zero]

/-- One iteration of the receiver loop (C lines 95–107) for partition `i`:
read the partition, time it, and on a hit (`elapsed i ≤ CACHE_HIT_THRESHOLD`)
increment the `unsigned char` counter, wrapping at 256.  The state carries
the counter table and the list of partitions read so far. -/
def receiveStep (elapsed : Nat → Nat) (st : (Nat → Nat) × List Nat) (i : Nat) :
    (Nat → Nat) × List Nat :=
  let agg := st.1
  let agg' : Nat → Nat :=
    if elapsed i ≤ CACHE_HIT_THRESHOLD then
      fun j => if j = i then (agg i + 1) % 256 else agg j
    else agg
  (agg', st.2 ++ [i])

/-- `receive_bytes(unsigned char *aggregated_results)`: loop `i = 0..255`
in order, with the per-partition elapsed read time supplied by `elapsed`.
Returns the updated counter table and the ordered list of partitions read. -/
def receive_bytes (elapsed : Nat → Nat) (aggregated_results : Nat → Nat) :
    (Nat → Nat) × List Nat :=
  (List.range 256).foldl (receiveStep elapsed) (aggregated_results, [])

/-- One iteration of the `best_results` scan (C lines 116–123), carrying
the `int` sentinels `best`/`second_best` (initially `-1`). -/
def bestStep (aggregated_results : Nat → Nat) (st : Int × Int) (i : Nat) :
    Int × Int :=
  if st.1 < 0 ∨ aggregated_results st.1.toNat ≤ aggregated_results i then
    (Int.ofNat i, st.1)
  else if st.2 < 0 ∨ aggregated_results st.2.toNat ≤ aggregated_results i then
    (st.1, Int.ofNat i)
  else st

/-- Output of `best_results` / `transmit_and_receive`: `value[0..1]` and
`score[0..1]`. -/
structure DecodeResult where
  value0 : Nat
  value1 : Nat
  score0 : Nat
  score1 : Nat
deriving DecidableEq, Repr

/-- `best_results(aggregated_results, value, score)`: a single
left-to-right scan of the 256 counters keeping the running best and
second-best indices, then `value[k] = (uint8_t)index`,
`score[k] = aggregated_results[index]`. -/
def best_results (aggregated_results : Nat → Nat) : DecodeResult :=
  let st := (List.range 256).foldl (bestStep aggregated_results) (-1, -1)
  { value0 := st.1.toNat % 256
    value1 := st.2.toNat % 256
    score0 := aggregated_results st.1.toNat
    score1 := aggregated_results st.2.toNat }

/-- `train_and_transmit(training_x, malicious_x)` as the ordered list of
indices passed to `transmit_byte`: the loop header is
`for (j = 0; j <= TRAINING_RUNS * 6; j++)`, so `j` ranges over
`0, 1, ..., TRAINING_RUNS * 6` inclusive, and each round computes its
index with the branchless selection. -/
def train_and_transmit (training_x malicious_x : Nat) : List Nat :=
  (List.range (TRAINING_RUNS * 6 + 1)).map
    (fun j => selectIndex j training_x malicious_x)

/-- The descending list of `tries` values of the session loop in
`transmit_and_receive`: `for (tries = 99; tries > 0; tries--)`. -/
def triesList : List Nat := (List.range 99).map (fun k => 99 - k)

/-- The three pipeline steps of one trial, in execution order. -/
inductive TrialStep where
  | flush : TrialStep
  | train : Nat → Nat → TrialStep
  | receive : TrialStep
deriving DecidableEq, Repr

/-- One trial of the session loop (C lines 176–189): flush the probe
array, train with legitimate index `tries % ARRAY_SIZE` and the malicious
index, then receive into the shared counter table.  Only `receive_bytes`
touches the counters; the trace records the three steps in order.
`timing t` gives the elapsed-time samples the receiver observes in the
trial with loop counter `t`. -/
def runTrial (timing : Nat → Nat → Nat) (malicious_x : Nat)
    (st : (Nat → Nat) × List TrialStep) (tries : Nat) :
    (Nat → Nat) × List TrialStep :=
  ((receive_bytes (timing tries) st.1).1,
    st.2 ++ [TrialStep.flush, TrialStep.train (tries % ARRAY_SIZE) malicious_x,
      TrialStep.receive])

/-- The counter table after the first `n` trials of the session, starting
from the zero-initialised table (C lines 171–172). -/
def countsAfter (timing : Nat → Nat → Nat) (malicious_x n : Nat) : Nat → Nat :=
  ((triesList.take n).foldl (runTrial timing malicious_x) (fun _ => 0, [])).1

/-- `transmit_and_receive(malicious_x, value, score)`: zero-initialise the
counters, run the 99 trials, and hand the accumulated table to
`best_results` once at the end.  Returns the decode result and the trace
of pipeline steps. -/
def transmit_and_receive (timing : Nat → Nat → Nat) (malicious_x : Nat) :
    DecodeResult × List TrialStep :=
  let st := triesList.foldl (runTrial timing malicious_x) (fun _ => 0, [])
  (best_results st.1, st.2)

/-- The confidence check of the driver (C line 217):
`score[0] >= 2*score[1]` prints `"Success"`, otherwise `"Unclear"`. -/
def success (score0 score1 : Nat) : Bool := 2 * score1 ≤ score0

/-- The per-byte report line the driver prints (C lines 217–224): the
confidence label and, in either case, the best value and its score. -/
structure ReportLine where
  label : String
  value : Nat
  score : Nat
deriving DecidableEq, Repr

/-- Build the report line of `main` from a decode result. -/
def report (r : DecodeResult) : ReportLine :=
  { label := if success r.score0 r.score1 then "Success" else "Unclear"
    value := r.value0
    score := r.score0 }

/-- Specification-side predicate: `b` is the partition with the highest
count among `0..n-1`, most-recent-wins — every index has count at most
`counts b`, and every later index has a strictly smaller count. -/
abbrev IsLastBest (counts : Nat → Nat) (n b : Nat) : Prop :=
  b < n ∧ (∀ j, j < n → counts j ≤ counts b) ∧
    (∀ j, j < n → b < j → counts j < counts b)

/-- Specification-side predicate: `s` is the second-best partition,
most-recent-wins — among indices other than the best `b`, every count is
at most `counts s` and every later one is strictly smaller. -/
abbrev IsLastSecond (counts : Nat → Nat) (n b s : Nat) : Prop :=
  s < n ∧ s ≠ b ∧ (∀ j, j < n → j ≠ b → counts j ≤ counts s) ∧
    (∀ j, j < n → j ≠ b → s < j → counts j < counts s)

/-- `bestStep` on non-negative sentinels, as a plain conditional on the
counter values. -/
theorem bestStep_ofNat (counts : Nat → Nat) (b s i : Nat) :
    bestStep counts (Int.ofNat b, Int.ofNat s) i =
      if counts b ≤ counts i then (Int.ofNat i, Int.ofNat b)
      else if counts s ≤ counts i then (Int.ofNat b, Int.ofNat i)
      else (Int.ofNat b, Int.ofNat s) := by
  have h1 : ¬(Int.ofNat b < 0) := Int.not_lt.mpr (Int.ofNat_nonneg b)
  have h2 : ¬(Int.ofNat s < 0) := Int.not_lt.mpr (Int.ofNat_nonneg s)
  have h3 : ∀ n : Nat, (Int.ofNat n).toNat = n := fun _ => rfl
  simp only [bestStep, h1, h2, false_or, h3]

/-- Invariant of the `best_results` scan: after the first `n ≥ 2` steps
the sentinels hold the most-recent best and second-best indices of the
prefix `0..n-1`. -/
theorem bestPair_inv (counts : Nat → Nat) :
    ∀ n, 2 ≤ n → ∃ b s : Nat,
      (List.range n).foldl (bestStep counts) (-1, -1) = (Int.ofNat b, Int.ofNat s) ∧
        IsLastBest counts n b ∧ IsLastSecond counts n b s := by
  intro n hn
  induction n, hn using Nat.le_induction with
  | base =>
    have hr : (List.range 2).foldl (bestStep counts) (-1, -1)
        = bestStep counts (bestStep counts (-1, -1) 0) 1 := by
      simp [List.range_succ]
    have h0 : bestStep counts (-1, -1) 0 = (Int.ofNat 0, -1) := by
      norm_num [bestStep]
    by_cases h : counts 0 ≤ counts 1
    · refine ⟨1, 0, ?_, ?_, ?_⟩
      · rw [hr, h0]
        norm_num [bestStep, h]
      · refine ⟨by omega, ?_, by omega⟩
        intro j hj
        interval_cases j
        · exact h
        · exact le_rfl
      · refine ⟨by omega, by omega, ?_, by omega⟩
        intro j hj hne
        interval_cases j
        · exact le_rfl
        · omega
    · refine ⟨0, 1, ?_, ?_, ?_⟩
      · rw [hr, h0]
        norm_num [bestStep, h]
      · refine ⟨by omega, ?_, ?_⟩
        · intro j hj
          interval_cases j
          · exact le_rfl
          · omega
        · intro j hj hlt
          interval_cases j
          omega
      · refine ⟨by omega, by omega, ?_, by omega⟩
        intro j hj hne
        interval_cases j
        · omega
        · exact le_rfl
  | succ n hn ih =>
    obtain ⟨b, s, heq, hB, hS⟩ := ih
    have hbn : b < n := hB.1
    have hsn : s < n := hS.1
    have hsb : s ≠ b := hS.2.1
    have hle := hB.2.1
    have hlt := hB.2.2
    have h2le := hS.2.2.1
    have h2lt := hS.2.2.2
    have hr : (List.range (n + 1)).foldl (bestStep counts) (-1, -1)
        = bestStep counts (Int.ofNat b, Int.ofNat s) n := by
      rw [List.range_succ, List.foldl_append, heq, List.foldl_cons, List.foldl_nil]
    by_cases hA : counts b ≤ counts n
    · refine ⟨n, b, ?_, ?_, ?_⟩
      · rw [hr, bestStep_ofNat, if_pos hA]
      · refine ⟨by omega, ?_, by omega⟩
        intro j hj
        rcases Nat.lt_succ_iff_lt_or_eq.mp hj with h | h
        · exact le_trans (hle j h) hA
        · subst h; exact le_rfl
      · refine ⟨by omega, by omega, ?_, ?_⟩
        · intro j hj hne
          exact hle j (by omega)
        · intro j hj hne hgt
          exact hlt j (by omega) hgt
    · have hA' : counts n < counts b := Nat.lt_of_not_le hA
      have hBest : IsLastBest counts (n + 1) b := by
        refine ⟨by omega, ?_, ?_⟩
        · intro j hj
          rcases Nat.lt_succ_iff_lt_or_eq.mp hj with h | h
          · exact hle j h
          · subst h; exact le_of_lt hA'
        · intro j hj hgt
          rcases Nat.lt_succ_iff_lt_or_eq.mp hj with h | h
          · exact hlt j h hgt
          · subst h; exact hA'
      by_cases hC : counts s ≤ counts n
      · refine ⟨b, n, ?_, hBest, ?_⟩
        · rw [hr, bestStep_ofNat, if_neg hA, if_pos hC]
        · refine ⟨by omega, by omega, ?_, by omega⟩
          intro j hj hne
          rcases Nat.lt_succ_iff_lt_or_eq.mp hj with h | h
          · exact le_trans (h2le j h hne) hC
          · subst h; exact le_rfl
      · have hC' : counts n < counts s := Nat.lt_of_not_le hC
        refine ⟨b, s, ?_, hBest, ?_⟩
        · rw [hr, bestStep_ofNat, if_neg hA, if_neg hC]
        · refine ⟨by omega, hsb, ?_, ?_⟩
          · intro j hj hne
            rcases Nat.lt_succ_iff_lt_or_eq.mp hj with h | h
            · exact h2le j h hne
            · subst h; exact le_of_lt hC'
          · intro j hj hne hgt
            rcases Nat.lt_succ_iff_lt_or_eq.mp hj with h | h
            · exact h2lt j h hne hgt
            · subst h; exact hC'

/-- The most-recent best index is unique. -/
theorem isLastBest_unique {counts : Nat → Nat} {n b b' : Nat}
    (h : IsLastBest counts n b) (h' : IsLastBest counts n b') : b = b' := by
  rcases Nat.lt_trichotomy b b' with hlt | he | hgt
  · have h1 := h.2.2 b' h'.1 hlt
    have h2 := h'.2.1 b h.1
    omega
  · exact he
  · have h1 := h'.2.2 b h.1 hgt
    have h2 := h.2.1 b' h'.1
    omega

/-- The most-recent second-best index (for a fixed best) is unique. -/
theorem isLastSecond_unique {counts : Nat → Nat} {n b s s' : Nat}
    (h : IsLastSecond counts n b s) (h' : IsLastSecond counts n b s') : s = s' := by
  rcases Nat.lt_trichotomy s s' with hlt | he | hgt
  · have h1 := h.2.2.2 s' h'.1 h'.2.1 hlt
    have h2 := h'.2.2.1 s h.1 h.2.1
    omega
  · exact he
  · have h1 := h'.2.2.2 s h.1 h.2.1 hgt
    have h2 := h.2.2.1 s' h'.1 h'.2.1
    omega

/-- `best_results` returns exactly the most-recent best and second-best
indices together with their raw counts. -/
theorem best_results_eq (counts : Nat → Nat) (b s : Nat)
    (hB : IsLastBest counts 256 b) (hS : IsLastSecond counts 256 b s) :
    best_results counts = ⟨b, s, counts b, counts s⟩ := by
  obtain ⟨b', s', heq, hB', hS'⟩ := bestPair_inv counts 256 (by omega)
  have hb : b = b' := isLastBest_unique hB hB'
  subst hb
  have hs : s = s' := isLastSecond_unique hS hS'
  subst hs
  unfold best_results
  rw [heq]
  simp [Nat.mod_eq_of_lt hB.1, Nat.mod_eq_of_lt hS.1]

/-- The receiver's trace component just appends each visited partition. -/
theorem receiveFold_trace (elapsed : Nat → Nat) :
    ∀ (l : List Nat) (st : (Nat → Nat) × List Nat),
      (l.foldl (receiveStep elapsed) st).2 = st.2 ++ l := by
  intro l
  induction l with
  | nil => intro st; simp
  | cons x xs ih =>
    intro st
    rw [List.foldl_cons, ih]
    simp [receiveStep]

/-- `receive_bytes` reads the 256 partitions in ascending order, each
exactly once. -/
theorem receive_bytes_trace (elapsed : Nat → Nat) (a : Nat → Nat) :
    (receive_bytes elapsed a).2 = List.range 256 := by
  rw [receive_bytes, receiveFold_trace]
  simp

/-- Pointwise effect of the first `n` iterations of the receiver loop on
the counter table. -/
theorem receiveFold_table (elapsed : Nat → Nat) :
    ∀ (n : Nat) (a : Nat → Nat) (l : List Nat) (j : Nat),
      ((List.range n).foldl (receiveStep elapsed) (a, l)).1 j =
        if j < n ∧ elapsed j ≤ CACHE_HIT_THRESHOLD then (a j + 1) % 256 else a j := by
  intro n
  induction n with
  | zero => intro a l j; simp
  | succ n ih =>
    intro a l j
    rw [List.range_succ, List.foldl_append, List.foldl_cons, List.foldl_nil]
    simp only [receiveStep]
    by_cases hh : elapsed n ≤ CACHE_HIT_THRESHOLD
    · rw [if_pos hh]
      by_cases hj : j = n
      · subst hj
        simp only [if_pos rfl, eq_self_iff_true, if_true]
        rw [ih a l j]
        have h1 : ¬(j < j ∧ elapsed j ≤ CACHE_HIT_THRESHOLD) := by omega
        have h2 : j < j + 1 ∧ elapsed j ≤ CACHE_HIT_THRESHOLD := ⟨Nat.lt_succ_self j, hh⟩
        rw [if_neg h1, if_pos h2]
      · simp only [if_neg hj]
        rw [ih a l j]
        by_cases hc : j < n ∧ elapsed j ≤ CACHE_HIT_THRESHOLD
        · have hc' : j < n + 1 ∧ elapsed j ≤ CACHE_HIT_THRESHOLD := ⟨by omega, hc.2⟩
          rw [if_pos hc, if_pos hc']
        · have hc' : ¬(j < n + 1 ∧ elapsed j ≤ CACHE_HIT_THRESHOLD) := by
            intro h
            rcases h with ⟨hlt, hht⟩
            exact hc ⟨by omega, hht⟩
          rw [if_neg hc, if_neg hc']
    · rw [if_neg hh]
      rw [ih a l j]
      by_cases hj : j = n
      · subst hj
        have h1 : ¬(j < j ∧ elapsed j ≤ CACHE_HIT_THRESHOLD) := by omega
        have h2 : ¬(j < j + 1 ∧ elapsed j ≤ CACHE_HIT_THRESHOLD) := fun h => hh h.2
        rw [if_neg h1, if_neg h2]
      · by_cases hc : j < n ∧ elapsed j ≤ CACHE_HIT_THRESHOLD
        · have hc' : j < n + 1 ∧ elapsed j ≤ CACHE_HIT_THRESHOLD := ⟨by omega, hc.2⟩
          rw [if_pos hc, if_pos hc']
        · have hc' : ¬(j < n + 1 ∧ elapsed j ≤ CACHE_HIT_THRESHOLD) := by
            intro h
            rcases h with ⟨hlt, hht⟩
            exact hc ⟨by omega, hht⟩
          rw [if_neg hc, if_neg hc']

/-- Pointwise effect of one whole `receive_bytes` call. -/
theorem receive_bytes_table (elapsed : Nat → Nat) (a : Nat → Nat) (j : Nat) :
    (receive_bytes elapsed a).1 j =
      if j < 256 ∧ elapsed j ≤ CACHE_HIT_THRESHOLD then (a j + 1) % 256 else a j := by
  rw [receive_bytes, receiveFold_table]

/-- The per-trial step list emitted into the session trace. -/
def trialSteps (malicious_x t : Nat) : List TrialStep :=
  [TrialStep.flush, TrialStep.train (t % ARRAY_SIZE) malicious_x, TrialStep.receive]

/-- The session fold splits into the counter-table fold and the
concatenated per-trial traces. -/
theorem sessionFold_split (timing : Nat → Nat → Nat) (malicious_x : Nat) :
    ∀ (l : List Nat) (a : Nat → Nat) (tr : List TrialStep),
      l.foldl (runTrial timing malicious_x) (a, tr) =
        (l.foldl (fun c t => (receive_bytes (timing t) c).1) a,
          tr ++ (l.map (trialSteps malicious_x)).flatten) := by
  intro l
  induction l with
  | nil => intro a tr; simp
  | cons x xs ih =>
    intro a tr
    rw [List.foldl_cons, runTrial, ih]
    simp [trialSteps, List.append_assoc]

/-- `countsAfter` is the plain counter-table fold over the first `n`
trials. -/
theorem countsAfter_eq (timing : Nat → Nat → Nat) (malicious_x n : Nat) :
    countsAfter timing malicious_x n =
      (triesList.take n).foldl (fun c t => (receive_bytes (timing t) c).1)
        (fun _ => 0) := by
  rw [countsAfter, sessionFold_split]

theorem triesList_length : triesList.length = 99 := by
  simp [triesList]

/-- One receiver call adds at most one to each counter. -/
theorem receive_le_succ (elapsed : Nat → Nat) (a : Nat → Nat) (i : Nat) :
    (receive_bytes elapsed a).1 i ≤ a i + 1 := by
  rw [receive_bytes_table]
  by_cases hc : i < 256 ∧ elapsed i ≤ CACHE_HIT_THRESHOLD
  · rw [if_pos hc]
    exact le_trans (Nat.mod_le _ _) (le_refl _)
  · rw [if_neg hc]
    omega

/-- One receiver call never decreases a counter that is below the
`unsigned char` wrap bound. -/
theorem receive_mono (elapsed : Nat → Nat) (a : Nat → Nat) (i : Nat)
    (h : a i ≤ 254) :
    a i ≤ (receive_bytes elapsed a).1 i := by
  rw [receive_bytes_table]
  by_cases hc : i < 256 ∧ elapsed i ≤ CACHE_HIT_THRESHOLD
  · rw [if_pos hc, Nat.mod_eq_of_lt (by omega)]
    omega
  · rw [if_neg hc]

/-- The counter fold over a trial list adds at most the number of trials
to each counter. -/
theorem countsFold_le (timing : Nat → Nat → Nat) :
    ∀ (l : List Nat) (a : Nat → Nat) (i : Nat),
      (l.foldl (fun c t => (receive_bytes (timing t) c).1) a) i ≤ a i + l.length := by
  intro l
  induction l with
  | nil => intro a i; simp
  | cons x xs ih =>
    intro a i
    rw [List.foldl_cons]
    have h1 := ih ((receive_bytes (timing x) a).1) i
    have h2 := receive_le_succ (timing x) a i
    have h3 : (x :: xs).length = xs.length + 1 := by simp
    omega

/-- After `n` trials every counter is at most `n`. -/
theorem countsAfter_le (timing : Nat → Nat → Nat) (malicious_x n i : Nat) :
    countsAfter timing malicious_x n i ≤ n := by
  rw [countsAfter_eq]
  have h1 := countsFold_le timing (triesList.take n) (fun _ => 0) i
  have h2 : (triesList.take n).length ≤ n := by
    simp [List.length_take]
  omega

/-- Each trial of the session leaves every counter no smaller than
before: the counters never wrap because they stay below 255. -/
theorem countsAfter_mono (timing : Nat → Nat → Nat) (malicious_x n i : Nat)
    (hn : n < 99) :
    countsAfter timing malicious_x n i ≤ countsAfter timing malicious_x (n + 1) i := by
  rw [countsAfter_eq, countsAfter_eq]
  have hget : triesList[n]? = some (99 - n) := by
    rw [triesList, List.getElem?_map, List.getElem?_range hn]
    rfl
  rw [List.take_succ, hget, Option.toList_some, List.foldl_append, List.foldl_cons,
    List.foldl_nil]
  apply receive_mono
  have h1 := countsFold_le timing (triesList.take n) (fun _ => 0) i
  have h2 : (triesList.take n).length ≤ n := by
    simp [List.length_take]
  omega

/-- Under a timing model in which exactly partition `k` registers a hit
in every trial, the counter fold turns the table `c·δₖ` into
`(c + trials)·δₖ`, with no wrap while the total stays at most 255. -/
theorem countsFold_deterministic (timing : Nat → Nat → Nat) (k : Nat) (hk : k < 256)
    (hmodel : ∀ t i, i < 256 → (timing t i ≤ CACHE_HIT_THRESHOLD ↔ i = k)) :
    ∀ (l : List Nat) (c : Nat) (a : Nat → Nat),
      (∀ i, a i = if i = k then c else 0) → c + l.length ≤ 255 →
      ∀ i, (l.foldl (fun c' t => (receive_bytes (timing t) c').1) a) i =
        if i = k then c + l.length else 0 := by
  intro l
  induction l with
  | nil =>
    intro c a ha _ i
    simpa using ha i
  | cons x xs ih =>
    intro c a ha hb i
    rw [List.foldl_cons]
    have hlen : (x :: xs).length = xs.length + 1 := by simp
    have hstep : ∀ i, (receive_bytes (timing x) a).1 i = if i = k then c + 1 else 0 := by
      intro i
      rw [receive_bytes_table]
      by_cases hik : i = k
      · subst hik
        have hc : i < 256 ∧ timing x i ≤ CACHE_HIT_THRESHOLD :=
          ⟨hk, (hmodel x i hk).mpr rfl⟩
        rw [if_pos hc, if_pos rfl, ha i, if_pos rfl,
          Nat.mod_eq_of_lt (by omega)]
      · rw [if_neg hik]
        by_cases hi : i < 256
        · have hmiss : ¬(timing x i ≤ CACHE_HIT_THRESHOLD) := by
            intro h
            exact hik ((hmodel x i hi).mp h)
          rw [if_neg (fun h => hmiss h.2), ha i, if_neg hik]
        · rw [if_neg (fun h => hi h.1), ha i, if_neg hik]
    have hres := ih (c + 1) ((receive_bytes (timing x) a).1) hstep (by omega) i
    rw [hres, hlen]
    by_cases hik : i = k
    · rw [if_pos hik, if_pos hik]
      omega
    · rw [if_neg hik, if_neg hik]

/-- With a deterministic single-partition timing model, the session's
final counter table is `99` at `k` and `0` everywhere else. -/
theorem countsAfter_deterministic (timing : Nat → Nat → Nat) (malicious_x k : Nat)
    (hk : k < 256)
    (hmodel : ∀ t i, i < 256 → (timing t i ≤ CACHE_HIT_THRESHOLD ↔ i = k)) :
    countsAfter timing malicious_x 99 = fun i => if i = k then 99 else 0 := by
  rw [countsAfter_eq]
  funext i
  have htake : triesList.take 99 = triesList :=
    List.take_of_length_le (le_of_eq triesList_length)
  rw [htake]
  have h := countsFold_deterministic timing k hk hmodel triesList 0
    (fun _ => 0) (fun i => by simp) (by rw [triesList_length]; omega) i
  rw [h, triesList_length]

/-- C1: `transmit_byte` architecturally accesses the bounded buffer only
under the guard `x < array_size`: for any out-of-range index (including
a malicious one) the guarded branch is not taken, so no read of `array`
or `partitions` and no write to `temp` occurs — only the unconditional
flush of `array_size` remains in the trace and `temp` is unchanged. -/
theorem transmit_byte_oob (partitions : Nat → Nat) (x temp : Nat)
    (hx : array_size ≤ x) :
    transmit_byte partitions x temp = (temp, [MemEvent.flushArraySize]) := by
  simp only [transmit_byte]
  rw [if_neg (Nat.not_lt.mpr hx)]

/-- C1 witness at the concrete out-of-range index 1000. -/
theorem transmit_byte_oob_witness :
    transmit_byte (fun _ => 3) 1000 7 = (7, [MemEvent.flushArraySize]) :=
  transmit_byte_oob (fun _ => 3) 1000 7 (by decide)

/-- C2: with the timing source replaced by a deterministic model in which
exactly one fixed partition `k` registers a hit in every trial and every
other partition misses, `transmit_and_receive` returns `value[0] = k`
with `score[0] = 99` (the trial count) and `score[1] = 0`, and the
decode is classified high-confidence. -/
theorem deterministic_decode (timing : Nat → Nat → Nat) (malicious_x k : Nat)
    (hk : k < 256)
    (hmodel : ∀ t i, i < 256 → (timing t i ≤ CACHE_HIT_THRESHOLD ↔ i = k)) :
    (transmit_and_receive timing malicious_x).1.value0 = k ∧
    (transmit_and_receive timing malicious_x).1.score0 = 99 ∧
    (transmit_and_receive timing malicious_x).1.score1 = 0 ∧
    success (transmit_and_receive timing malicious_x).1.score0
      (transmit_and_receive timing malicious_x).1.score1 = true := by
  have hres : (transmit_and_receive timing malicious_x).1
      = best_results (countsAfter timing malicious_x 99) := by
    show best_results ((triesList.foldl (runTrial timing malicious_x)
      (fun _ => 0, [])).1) = _
    rw [countsAfter, List.take_of_length_le (le_of_eq triesList_length)]
  rw [hres, countsAfter_deterministic timing malicious_x k hk hmodel]
  have hB : IsLastBest (fun i => if i = k then 99 else 0) 256 k := by
    refine ⟨hk, ?_, ?_⟩
    · intro j hj
      by_cases h : j = k <;> simp [h]
    · intro j hj hgt
      have h : j ≠ k := by omega
      simp [h]
  have hS : IsLastSecond (fun i => if i = k then 99 else 0) 256 k
      (if k = 255 then 254 else 255) := by
    by_cases hk255 : k = 255
    · subst hk255
      rw [if_pos rfl]
      refine ⟨by omega, by omega, ?_, ?_⟩
      · intro j hj hne
        simp [hne]
      · intro j hj hne hgt
        omega
    · rw [if_neg hk255]
      refine ⟨by omega, fun h => hk255 h.symm, ?_, ?_⟩
      · intro j hj hne
        have h255 : ¬((255 : Nat) = k) := fun h => hk255 h.symm
        simp [hne, h255]
      · intro j hj hne hgt
        omega
  have hsk : (if k = 255 then 254 else 255) ≠ k := hS.2.1
  rw [best_results_eq _ k (if k = 255 then 254 else 255) hB hS]
  refine ⟨rfl, by simp, by simp [hsk], by simp [success, hsk]⟩

/-- C2 witness: the deterministic model that hits only partition 65. -/
theorem deterministic_decode_witness :
    (transmit_and_receive (fun _ i => if i = 65 then 0 else 1000) 500).1.value0 = 65 ∧
    (transmit_and_receive (fun _ i => if i = 65 then 0 else 1000) 500).1.score0 = 99 ∧
    (transmit_and_receive (fun _ i => if i = 65 then 0 else 1000) 500).1.score1 = 0 ∧
    success (transmit_and_receive (fun _ i => if i = 65 then 0 else 1000) 500).1.score0
      (transmit_and_receive (fun _ i => if i = 65 then 0 else 1000) 500).1.score1 = true :=
  deterministic_decode (fun _ i => if i = 65 then 0 else 1000) 500 65 (by decide)
    (fun t i _ => by by_cases h : i = 65 <;> simp [h, CACHE_HIT_THRESHOLD])

/-- C3: `best_results` returns the partition with the highest accumulated
count as best and the second-highest as second-best, each paired with its
raw count, with most-recent-wins tie-breaking for both best and
second-best during the left-to-right scan. -/
theorem best_results_top_two (aggregated_results : Nat → Nat) :
    IsLastBest aggregated_results 256 (best_results aggregated_results).value0 ∧
    IsLastSecond aggregated_results 256 (best_results aggregated_results).value0
      (best_results aggregated_results).value1 ∧
    (best_results aggregated_results).score0 =
      aggregated_results (best_results aggregated_results).value0 ∧
    (best_results aggregated_results).score1 =
      aggregated_results (best_results aggregated_results).value1 := by
  obtain ⟨b, s, heq, hB, hS⟩ := bestPair_inv aggregated_results 256 (by omega)
  rw [best_results_eq aggregated_results b s hB hS]
  exact ⟨hB, hS, rfl, rfl⟩

/-- A counter table in which partitions 0 and 1 are tied for the maximal
count. -/
def tieTable : Nat → Nat := fun i => if i ≤ 1 then 1 else 0

set_option maxRecDepth 4096 in
theorem tieTable_best : IsLastBest tieTable 256 1 := by decide

set_option maxRecDepth 4096 in
theorem tieTable_second : IsLastSecond tieTable 256 1 0 := by decide

/-- C4 counterexample: on a table with partitions 0 and 1 tied for the
maximal count, `best_results` returns the *later* index 1 as best, not
the earlier index 0 the claim requires. -/
theorem best_results_tie_earliest_counterexample :
    tieTable 0 = tieTable 1 ∧ (best_results tieTable).value0 = 1 ∧
      (best_results tieTable).value0 ≠ 0 := by
  rw [best_results_eq tieTable 1 0 tieTable_best tieTable_second]
  exact ⟨rfl, rfl, by decide⟩

/-- C4 (amended): in the candidate pairs produced by the aggregator, ties
in hit count are broken by the *latest* index encountered: the returned
best and second-best are exactly the most-recent maximal indices. -/
theorem best_results_tiebreak_latest (aggregated_results : Nat → Nat) (b s : Nat)
    (hB : IsLastBest aggregated_results 256 b)
    (hS : IsLastSecond aggregated_results 256 b s) :
    (best_results aggregated_results).value0 = b ∧
    (best_results aggregated_results).value1 = s := by
  rw [best_results_eq aggregated_results b s hB hS]
  exact ⟨rfl, rfl⟩

/-- C4 witness: on the tied table the amended rule picks index 1 over 0. -/
theorem best_results_tiebreak_latest_witness :
    (best_results tieTable).value0 = 1 ∧ (best_results tieTable).value1 = 0 :=
  best_results_tiebreak_latest tieTable 1 0 tieTable_best tieTable_second

/-- C5: for every round index `j` and in-range inputs, the branchless
selection evaluates to `malicious_x` exactly when `j % 6 = 0` and to
`training_x` otherwise — extensionally equal to the conditional
selection. -/
theorem branchless_selection (j training_x malicious_x : Nat)
    (ht : training_x < 2 ^ 64) (hm : malicious_x < 2 ^ 64) :
    selectIndex j training_x malicious_x =
      if j % 6 = 0 then malicious_x else training_x :=
  selectIndex_eq j training_x malicious_x ht hm

/-- C5 witness at rounds 6 and 7. -/
theorem branchless_selection_witness :
    selectIndex 6 3 20 = 20 ∧ selectIndex 7 3 20 = 3 := by
  constructor
  · have h := branchless_selection 6 3 20 (by norm_num) (by norm_num)
    simpa using h
  · have h := branchless_selection 7 3 20 (by norm_num) (by norm_num)
    simpa using h

/-- C6 counterexample: the training loop header is
`for (j = 0; j <= TRAINING_RUNS * 6; j++)`, so the trainer performs 31
invocations of `transmit_byte`, not `TRAINING_RUNS * 6 = 30` as claimed. -/
theorem train_rounds_not_thirty :
    (train_and_transmit 1 100).length = 31 ∧
    (train_and_transmit 1 100).length ≠ TRAINING_RUNS * 6 := by
  constructor
  · simp [train_and_transmit, TRAINING_RUNS]
  · simp [train_and_transmit, TRAINING_RUNS]

/-- C6 (amended): the trainer performs exactly `TRAINING_RUNS * 6 + 1 = 31`
invocations of `transmit_byte`: 6 with the malicious index (the rounds
with `j % 6 = 0`) and 25 with the legitimate index — roughly four
legitimate calls for every malicious call. -/
theorem train_rounds_count (training_x malicious_x : Nat)
    (ht : training_x < 2 ^ 64) (hm : malicious_x < 2 ^ 64)
    (hne : training_x ≠ malicious_x) :
    (train_and_transmit training_x malicious_x).length = 31 ∧
    (train_and_transmit training_x malicious_x).count malicious_x = 6 ∧
    (train_and_transmit training_x malicious_x).count training_x = 25 := by
  have hlist : train_and_transmit training_x malicious_x
      = (List.range 31).map (fun j => if j % 6 = 0 then malicious_x else training_x) := by
    rw [train_and_transmit]
    rw [show TRAINING_RUNS * 6 + 1 = 31 from rfl]
    apply List.map_congr_left
    intro j hj
    exact selectIndex_eq j training_x malicious_x ht hm
  have hrange : List.range 31 =
      [0, 1, 2, 3, 4, 5, 6, 7, 8, 9, 10, 11, 12, 13, 14, 15, 16, 17, 18, 19,
       20, 21, 22, 23, 24, 25, 26, 27, 28, 29, 30] := by decide
  have hmt : ¬(malicious_x = training_x) := fun h => hne h.symm
  rw [hlist, hrange]
  refine ⟨by simp, ?_, ?_⟩ <;>
    simp [List.count_cons, List.count_nil, hne, hmt]

/-- C6 witness at legitimate index 1 and malicious index 100. -/
theorem train_rounds_count_witness :
    (train_and_transmit 1 100).length = 31 ∧
    (train_and_transmit 1 100).count 100 = 6 ∧
    (train_and_transmit 1 100).count 1 = 25 :=
  train_rounds_count 1 100 (by norm_num) (by norm_num) (by decide)

/-- C7 counterexample: with an initial table already at the `unsigned
char` maximum 255, a hit does not increment the counter by exactly 1 —
the `aggregated_results[i]++` wraps the counter to 0. -/
theorem receive_bytes_wrap_counterexample :
    (receive_bytes (fun _ => 0) (fun _ => 255)).1 0 = 0 ∧
    (receive_bytes (fun _ => 0) (fun _ => 255)).1 0 ≠ 255 + 1 := by
  have h := receive_bytes_table (fun _ => 0) (fun _ => 255) 0
  norm_num [CACHE_HIT_THRESHOLD] at h
  exact ⟨h, by rw [h]; norm_num⟩

/-- C7 (amended): for every initial counter table and elapsed-time
samples, `receive_bytes` visits partitions 0..255 in ascending order
exactly once, and for each partition increments the `unsigned char`
counter modulo 256 on a hit (`elapsed ≤ CACHE_HIT_THRESHOLD`, i.e. 80)
and leaves it unchanged otherwise; the increment is by exactly 1
whenever the counter is below 255 (as on every table reachable within a
decode session). -/
theorem receive_bytes_spec (elapsed aggregated_results : Nat → Nat) :
    (receive_bytes elapsed aggregated_results).2 = List.range 256 ∧
    (∀ i, (receive_bytes elapsed aggregated_results).1 i =
      if i < 256 ∧ elapsed i ≤ CACHE_HIT_THRESHOLD
      then (aggregated_results i + 1) % 256 else aggregated_results i) ∧
    (∀ i, i < 256 → elapsed i ≤ CACHE_HIT_THRESHOLD → aggregated_results i < 255 →
      (receive_bytes elapsed aggregated_results).1 i = aggregated_results i + 1) := by
  refine ⟨receive_bytes_trace elapsed aggregated_results,
    fun i => receive_bytes_table elapsed aggregated_results i, ?_⟩
  intro i hi hhit hlt
  rw [receive_bytes_table, if_pos ⟨hi, hhit⟩, Nat.mod_eq_of_lt (by omega)]

/-- C7 witness: partition 7 hits on a table holding 5 and counts up to 6. -/
theorem receive_bytes_spec_witness :
    (receive_bytes (fun i => if i = 7 then 0 else 1000) (fun _ => 5)).1 7 = 6 := by
  have h := (receive_bytes_spec (fun i => if i = 7 then 0 else 1000) (fun _ => 5)).2.2
    7 (by norm_num) (by norm_num [CACHE_HIT_THRESHOLD]) (by norm_num)
  simpa using h

/-- C8: the decode session zero-initialises all 256 counters, runs
exactly 99 trials, each performing in order a cache flush, then training
with legitimate index `tries % ARRAY_SIZE` (always below `array_size`,
cycling through that range as `tries` counts 99 down to 1) and the
target offset as malicious index, then a receive accumulating into the
one shared table; `best_results` is applied exactly once, to the table
accumulated after all 99 trials. -/
theorem transmit_and_receive_spec (timing : Nat → Nat → Nat) (malicious_x : Nat) :
    (transmit_and_receive timing malicious_x).1 =
      best_results (countsAfter timing malicious_x 99) ∧
    countsAfter timing malicious_x 0 = (fun _ => 0) ∧
    triesList = (List.range 99).map (fun k => 99 - k) ∧
    (transmit_and_receive timing malicious_x).2 =
      (triesList.map (fun t => [TrialStep.flush,
        TrialStep.train (t % ARRAY_SIZE) malicious_x, TrialStep.receive])).flatten ∧
    (∀ tx mx, TrialStep.train tx mx ∈ (transmit_and_receive timing malicious_x).2 →
      tx < array_size ∧ mx = malicious_x) := by
  have htr : (transmit_and_receive timing malicious_x).2 =
      (triesList.map (trialSteps malicious_x)).flatten := by
    show (triesList.foldl (runTrial timing malicious_x) (fun _ => 0, [])).2 = _
    rw [sessionFold_split]
    simp
  refine ⟨?_, rfl, rfl, ?_, ?_⟩
  · show best_results ((triesList.foldl (runTrial timing malicious_x)
      (fun _ => 0, [])).1) = _
    rw [countsAfter, List.take_of_length_le (le_of_eq triesList_length)]
  · rw [htr]
    rfl
  · intro tx mx hmem
    rw [htr] at hmem
    rw [List.mem_flatten] at hmem
    obtain ⟨l, hl, hmem⟩ := hmem
    rw [List.mem_map] at hl
    obtain ⟨t, ht, rfl⟩ := hl
    rw [trialSteps, List.mem_cons, List.mem_cons, List.mem_cons] at hmem
    rcases hmem with h | h | h | h
    · cases h
    · injection h with h1 h2
      rw [h1, h2]
      exact ⟨Nat.mod_lt _ (by decide), rfl⟩
    · cases h
    · cases (List.not_mem_nil _ h)

/-- C9: a decoded byte is reported `"Success"` (high confidence) iff
`score[0] ≥ 2 * score[1]` and `"Unclear"` (low confidence) otherwise,
and in both cases the report still carries the best value `value[0]` and
its score — low confidence is signalled only through the label, never as
an error return. -/
theorem confidence_rule (timing : Nat → Nat → Nat) (malicious_x : Nat) :
    ((report (transmit_and_receive timing malicious_x).1).label = "Success" ↔
      2 * (transmit_and_receive timing malicious_x).1.score1 ≤
        (transmit_and_receive timing malicious_x).1.score0) ∧
    ((report (transmit_and_receive timing malicious_x).1).label = "Unclear" ↔
      ¬(2 * (transmit_and_receive timing malicious_x).1.score1 ≤
        (transmit_and_receive timing malicious_x).1.score0)) ∧
    (report (transmit_and_receive timing malicious_x).1).value =
      (transmit_and_receive timing malicious_x).1.value0 ∧
    (report (transmit_and_receive timing malicious_x).1).score =
      (transmit_and_receive timing malicious_x).1.score0 := by
  by_cases h : 2 * (transmit_and_receive timing malicious_x).1.score1 ≤
      (transmit_and_receive timing malicious_x).1.score0
  · refine ⟨?_, ?_, rfl, rfl⟩ <;> simp [report, success, h]
  · refine ⟨?_, ?_, rfl, rfl⟩ <;> simp [report, success, h]

/-- C10: within one decode session every counter is monotonically
non-decreasing from trial to trial, stays bounded by the number of
trials run so far (hence by 99 at session end), and in particular never
reaches the `unsigned char` wrap-around value. -/
theorem counters_monotone (timing : Nat → Nat → Nat) (malicious_x n i : Nat)
    (hn : n < 99) :
    countsAfter timing malicious_x n i ≤ countsAfter timing malicious_x (n + 1) i ∧
    countsAfter timing malicious_x n i ≤ n ∧
    countsAfter timing malicious_x 99 i ≤ 99 ∧
    countsAfter timing malicious_x n i < 255 := by
  refine ⟨countsAfter_mono timing malicious_x n i hn,
    countsAfter_le timing malicious_x n i,
    countsAfter_le timing malicious_x 99 i, ?_⟩
  have h := countsAfter_le timing malicious_x n i
  omega

/-- C10 witness: the first trial under an all-hit timing model. -/
theorem counters_monotone_witness :
    countsAfter (fun _ _ => 0) 42 0 0 ≤ countsAfter (fun _ _ => 0) 42 1 0 ∧
    countsAfter (fun _ _ => 0) 42 0 0 ≤ 0 ∧
    countsAfter (fun _ _ => 0) 42 99 0 ≤ 99 ∧
    countsAfter (fun _ _ => 0) 42 0 0 < 255 :=
  counters_monotone (fun _ _ => 0) 42 0 0 (by norm_num)
